import Mathlib

/-!
Shallow embedding of the UltraFXR synthesis pipeline (Rust sources under
src/rust/src) and proofs about it.  Machine integers are modelled as `Nat`/`Int`
with explicit wrapping where the Rust code can overflow; `f32`/`f64` arithmetic
on rationals that the code performs exactly (addition, multiplication,
comparison, floor) is modelled over `ℚ`; transcendental functions (`sin`,
`sqrt`, `exp`) are abstracted as function parameters at the points where the
code calls them.
-/

namespace UltraFXR

/-! ### sourcepos.rs -/

/-- A position within source text, a byte offset (`Pos(pub u32)`). -/
structure Pos where
  val : Nat
  deriving DecidableEq, Repr

/-- A half-open range of source text (`Span { start, end }`).  The Rust field
`end` is a Lean keyword, so it is written `end_` here. -/
structure Span where
  start : Pos
  end_ : Pos
  deriving DecidableEq, Repr

/-- The function `Span::len` from sourcepos.rs, translated verbatim: the Rust body is
`self.end.0 - self.end.0` (not `self.end.0 - self.start.0`). -/
def Span.len (s : Span) : Nat := s.end_.val - s.end_.val

/-! ### units.rs -/

/-- An error from an operation on units. -/
inductive UnitError where
  | Overflow
  deriving DecidableEq, Repr

/-- Units associated with a quantity: signed 8-bit exponents.  The `i8`
components are modelled as `Int` with wrapping applied at the arithmetic
operations that the Rust code performs. -/
structure Units where
  volt : Int
  second : Int
  radian : Int
  decibel : Int
  deriving DecidableEq, Repr

/-- Rust `i8::overflowing_add`: wrapped sum in `[-128, 127]` plus an overflow
flag that is set when the wrapped value differs from the exact sum. -/
def i8_overflowing_add (a b : Int) : Int × Bool :=
  let s := a + b
  let w := (s + 128) % 256 - 128
  (w, decide (w ≠ s))

/-- The scalar (dimensionless, unitless) units: all exponents zero. -/
def Units.scalar : Units := ⟨0, 0, 0, 0⟩

/-- The function `Units::multiply` from units.rs, translated verbatim, including the fact
that the `radian` and `decibel` sums read `self.volt` instead of `self.radian`
and `self.decibel`. -/
def Units.multiply (self other : Units) : Except UnitError Units :=
  let (volt, o1) := i8_overflowing_add self.volt other.volt
  let (second, o2) := i8_overflowing_add self.second other.second
  let (radian, o3) := i8_overflowing_add self.volt other.radian
  let (decibel, o4) := i8_overflowing_add self.volt other.decibel
  if o1 || o2 || o3 || o4 then
    Except.error UnitError.Overflow
  else
    Except.ok ⟨volt, second, radian, decibel⟩

/-! ### rand.rs — PCG random number generator.

`u64`/`u32` values are modelled as `Nat` reduced mod `2^64`/`2^32` exactly
where the Rust code wraps (`overflowing_mul`, `overflowing_add`, `as u32`). -/

/-- State for a random number generator (`Rand { state, inc }`). -/
structure Rand where
  state : Nat
  inc : Nat
  deriving DecidableEq, Repr

/-- The function `u32::rotate_right`: rotate the 32-bit value `x` right by `r` bits
(the rotation amount is taken mod 32, as in Rust). -/
def rotr32 (x r : Nat) : Nat :=
  let r := r % 32
  ((x >>> r) ||| ((x <<< (32 - r)) % 4294967296)) % 4294967296

/-- The function `Rand::with_default_seed`. -/
def Rand.with_default_seed : Rand :=
  ⟨0x853c49e6748fea9b, 0xda3e39cb94b95bdb⟩

/-- The function `Rand::next`: advance the PCG state (`state * MUL + inc` wrapped to 64
bits) and produce the permuted 32-bit output of the previous state. -/
def Rand.next (r : Rand) : Nat × Rand :=
  let state := r.state
  let state' := (state * 6364136223846793005 + r.inc) % 18446744073709551616
  let x := (((state >>> 18) ^^^ state) >>> 27) % 4294967296
  (rotr32 x (state >>> 59), ⟨state', r.inc⟩)

/-! ### signal/program.rs — parameters and shared render state. -/

/-- Parameters for instantiating a synthesizer program.  `sample_rate` is an
`f64`, modelled as `ℚ`. -/
structure Parameters where
  sample_rate : ℚ
  buffer_size : Nat

/-- Input to a synthesizer program. -/
structure Input where
  gate : Option Nat
  note : ℚ

/-- Audio program execution state (`State { gate, note, end }`).  All three
fields are private in the Rust code; `end` is only ever written through
`State::stop`. -/
structure State where
  gate : Option Nat
  note : ℚ
  end_ : Option Nat

/-- The function `State::stop`: record the end offset, keeping the minimum of the previous
value and the new position. -/
def State.stop (s : State) (pos : Nat) : State :=
  { s with
    end_ := some (match s.end_ with
      | none => pos
      | some oldpos => min pos oldpos) }

/-! ### signal/ops.rs — Oscillator and Noise. -/

/-- The per-render state of an instantiated oscillator (`OscillatorF`). -/
structure OscillatorF where
  scale : ℚ
  phase : ℚ

/-- The function `Oscillator::instantiate` from signal/ops.rs, translated verbatim: the
`Parameters` argument is ignored (it is bound as `_parameters`) and the
phase-increment scale is the fixed constant `1.0 / 48000.0`. -/
def Oscillator.instantiate (_parameters : Parameters) : OscillatorF :=
  ⟨1 / 48000, 0⟩

/-- One sample of `OscillatorF::render`: output the pre-increment phase, add
`frequency * scale`, and wrap by subtracting 1 when the phase exceeds 1. -/
def OscillatorF.step (phase scale frequency : ℚ) : ℚ × ℚ :=
  let output := phase
  let phase := phase + frequency * scale
  let phase := if phase > 1 then phase - 1 else phase
  (output, phase)

/-- The function `OscillatorF::render`: loop over the frequency input buffer. -/
def OscillatorF.render (f : OscillatorF) (frequency : List ℚ) :
    List ℚ × OscillatorF :=
  match frequency with
  | [] => ([], f)
  | freq :: rest =>
    let (out, phase') := OscillatorF.step f.phase f.scale freq
    let (outs, f') := OscillatorF.render ⟨f.scale, phase'⟩ rest
    (out :: outs, f')

/-- The per-render state of an instantiated noise node.  In signal/ops.rs,
`NoiseF` is a fieldless unit struct: `struct NoiseF;`.  Its `render` method
obtains the random number generator by calling `state.rand()` on the shared
render `State` — a method that `State` (in signal/program.rs) does not have. -/
structure NoiseF where
  deriving DecidableEq, Repr

/-! ### signal/filter.rs — state-variable filters.

`f32` arithmetic is modelled over `ℚ`; the transcendental calls (`sin`, and
`sqrt` in `instantiate`) are abstracted as explicit function parameters at
exactly the points where the Rust code invokes them. -/

/-- The mode for a state-variable filter. -/
inductive Mode where
  | LowPass2
  | HighPass2
  | BandPass2
  | LowPass4
  deriving DecidableEq, Repr

/-- Mode for the inner state variable filter. -/
inductive SVFMode where
  | LowPass
  | HighPass
  | BandPass
  deriving DecidableEq, Repr

/-- State for a state variable filter (`SVF([f32; 2])`, destructured in the
loop as `[a, b]`). -/
structure SVF where
  a : ℚ
  b : ℚ
  deriving DecidableEq, Repr

/-- One iteration of the inner loop of `SVF::render`: the update is run twice
per sample (oversampling), and the emitted tap is selected by the mode. -/
def SVF.step (s : SVF) (x f invq : ℚ) (mode : SVFMode) : ℚ × SVF :=
  let a := s.a
  let b := s.b
  let b := b + f * a
  let c := x - b - invq * a
  let a := a + f * c
  let b := b + f * a
  let c := x - b - invq * a
  let a := a + f * c
  let output := match mode with
    | SVFMode.LowPass => b
    | SVFMode.HighPass => c
    | SVFMode.BandPass => a
  (output, ⟨a, b⟩)

/-- The function `SVF::render`: fold the per-sample update over the zipped input and
frequency-coefficient buffers. -/
def SVF.render (s : SVF) (input frequency : List ℚ) (invq : ℚ)
    (mode : SVFMode) : List ℚ × SVF :=
  match input, frequency with
  | x :: input, f :: frequency =>
    let (out, s') := SVF.step s x f invq mode
    let (outs, s'') := SVF.render s' input frequency invq mode
    (out :: outs, s'')
  | _, _ => ([], s)

/-- The per-render state of an instantiated state-variable filter
(`StateVariableF`).  The `temp` scratch buffer of the Rust struct is not
represented: `render` recomputes it from the frequency input on every call. -/
structure StateVariableF where
  stage0 : SVF
  stage1 : SVF
  scale : ℚ
  mode : Mode
  invq : ℚ

/-- The exact rational value of the IEEE-754 `f64` constant
`std::f64::consts::PI` (a dyadic rational). -/
def pi_f64 : ℚ := 884279719003555 / 281474976710656

/-- The function `StateVariable::instantiate`, with `f64::sqrt` abstracted as `sqrtq`:
for `LowPass4` the configured Q is transformed to `√(q·√½)` before the
reciprocal is stored. -/
def StateVariable.instantiate (sqrtq : ℚ → ℚ) (mode : Mode) (q : ℚ)
    (parameters : Parameters) : StateVariableF :=
  let q := match mode with
    | Mode.LowPass4 => sqrtq (q * sqrtq (1 / 2))
    | _ => q
  { stage0 := ⟨0, 0⟩
    stage1 := ⟨0, 0⟩
    scale := 2 * pi_f64 / parameters.sample_rate
    mode := mode
    invq := 1 / q }

/-- The function `StateVariableF::render`, with `f32::sin` abstracted as `sinq`.  The
frequency control is mapped to `sin(scale · min(x/2, 20000))`, and the mode
dispatch is translated verbatim: in the `LowPass4` arm, **both** stages are
rendered from the original `input` buffer into `output`, the second stage
overwriting the first stage's result. -/
def StateVariableF.render (f : StateVariableF) (sinq : ℚ → ℚ)
    (input frequency : List ℚ) : List ℚ × StateVariableF :=
  let temp := frequency.map (fun x => sinq (f.scale * min (x * (1 / 2)) 20000))
  match f.mode with
  | Mode.LowPass2 =>
    let (out, s0) := SVF.render f.stage0 input temp f.invq SVFMode.LowPass
    (out, { f with stage0 := s0 })
  | Mode.HighPass2 =>
    let (out, s0) := SVF.render f.stage0 input temp f.invq SVFMode.HighPass
    (out, { f with stage0 := s0 })
  | Mode.BandPass2 =>
    let (out, s0) := SVF.render f.stage0 input temp f.invq SVFMode.BandPass
    (out, { f with stage0 := s0 })
  | Mode.LowPass4 =>
    let (_out0, s0) := SVF.render f.stage0 input temp f.invq SVFMode.LowPass
    let (out1, s1) := SVF.render f.stage1 input temp f.invq SVFMode.LowPass
    (out1, { f with stage0 := s0, stage1 := s1 })

/-! ### signal/envelope.rs — per-sample generators.

Only the `Generator` state machine is needed for the claims; `f32` values are
modelled over `ℚ`. -/

/-- A generator for an infinite sequence of envelope values
(`enum Generator` in signal/envelope.rs). -/
inductive Generator where
  | Passthrough (value : ℚ)
  | Constant (value : ℚ)
  | Linear (value : ℚ) (delta : ℚ) (time : Nat) (target : ℚ)
  | Exponential (offset : ℚ) (target : ℚ) (decay : ℚ)
  deriving DecidableEq, Repr

/-- The inner loop of the `Linear` arm of `Generator::render`: emit
`cur += delta` for each of `n` samples, returning the emitted samples and the
final `cur`. -/
def linearRun (cur delta : ℚ) (n : Nat) : List ℚ × ℚ :=
  match n with
  | 0 => ([], cur)
  | n + 1 =>
    let cur := cur + delta
    let (outs, final) := linearRun cur delta n
    (cur :: outs, final)

/-- The inner loop of the `Exponential` arm of `Generator::render`: emit
`target + cur` then `cur *= decay`, for `n` samples. -/
def expRun (cur target decay : ℚ) (n : Nat) : List ℚ × ℚ :=
  match n with
  | 0 => ([], cur)
  | n + 1 =>
    let out := target + cur
    let cur := cur * decay
    let (outs, final) := expRun cur target decay n
    (out :: outs, final)

/-- The function `Generator::render`.  The argument is the current contents of the output
buffer (the generator may read it: `Passthrough` samples its last element),
and the result is the new buffer contents plus the updated generator.
In the `Linear` arm, `n = min time len` samples advance `cur += delta`; if the
segment is exhausted (`n = time`), the remainder of the buffer is filled with
`target` and the generator is replaced by `Constant { value: target }`. -/
def Generator.render (g : Generator) (buffer : List ℚ) :
    List ℚ × Generator :=
  match g with
  | Generator.Passthrough value =>
    (buffer, Generator.Passthrough (buffer.getLastD value))
  | Generator.Constant value =>
    (List.replicate buffer.length value, Generator.Constant value)
  | Generator.Linear value delta time target =>
    let n := min time buffer.length
    let (outs, cur) := linearRun value delta n
    if n < time then
      (outs ++ buffer.drop n, Generator.Linear cur delta (time - n) target)
    else
      (outs ++ List.replicate (buffer.length - n) target,
       Generator.Constant target)
  | Generator.Exponential offset target decay =>
    let (outs, cur) := expRun offset target decay buffer.length
    (outs, Generator.Exponential cur target decay)

/-- Run the generator over a sequence of render calls with the given buffer
sizes (fresh zero-filled buffers, as the engine hands the envelope its own
window), returning the concatenated emitted samples and the final generator. -/
def Generator.renderSeq (g : Generator) (sizes : List Nat) :
    List ℚ × Generator :=
  match sizes with
  | [] => ([], g)
  | n :: rest =>
    let (out, g') := Generator.render g (List.replicate n 0)
    let (outs, g'') := Generator.renderSeq g' rest
    (out ++ outs, g'')

/-! ### utf8.rs — the shared UTF-8 scanner. -/

/-- The function `char::try_from(u32)`: valid Unicode scalar values are code points below
`0x110000` excluding the surrogate range `0xD800..=0xDFFF`. -/
def char_try_from (cp : Nat) : Option Nat :=
  if cp < 1114112 ∧ ¬(55296 ≤ cp ∧ cp ≤ 57343) then some cp else none

/-- The continuation-byte loop of `parse_character`: consume up to `n` bytes
in `0x80..=0xBF` from `text` starting at index `1`, accumulating the code
point; return early with length `i + 1` on the first non-continuation. -/
def utf8_cont_loop (text : List Nat) (n : Nat) (cp : Nat) (i : Nat) :
    (Option Nat × Nat) ⊕ Nat :=
  match n with
  | 0 => Sum.inr cp
  | m + 1 =>
    match text.get? (1 + i) with
    | some c =>
      if 128 ≤ c ∧ c ≤ 191 then
        utf8_cont_loop text m ((cp <<< 6) ||| (c &&& 63)) (i + 1)
      else
        Sum.inl (none, i + 1)
    | none => Sum.inl (none, i + 1)

/-- The function `parse_character` from utf8.rs: parse a single Unicode code point from a
possibly invalid stream of UTF-8 bytes, returning the decoded character (as a
code point) and the character length in bytes. -/
def parse_character (text : List Nat) : Option Nat × Nat :=
  match text.get? 0 with
  | none => (none, 0)
  | some c1 =>
    if c1 ≤ 127 then (some c1, 1)
    else
      let hdr : Option (Nat × Nat × Nat) :=
        if 192 ≤ c1 ∧ c1 ≤ 223 then some (1, 128, c1 &&& 31)
        else if 224 ≤ c1 ∧ c1 ≤ 239 then some (2, 2048, c1 &&& 15)
        else if 240 ≤ c1 ∧ c1 ≤ 247 then some (3, 65536, c1 &&& 7)
        else none
      match hdr with
      | none => (none, 1)
      | some (n, mincp, cp0) =>
        match utf8_cont_loop text n cp0 0 with
        | Sum.inl r => r
        | Sum.inr cp =>
          let c := if cp < mincp then none else char_try_from cp
          (c, n + 1)

/-! ### token.rs — the tokenizer.

Input bytes are modelled as `List Nat` (each element `< 256` in practice). -/

/-- Token types. -/
inductive TokType where
  | End
  | Error
  | Comment
  | Symbol
  | Number
  | ParenOpen
  | ParenClose
  deriving DecidableEq, Repr

/-- A token in an s-expression: type, start position, and text (the slice of
the input that produced it). -/
structure Token where
  ty : TokType
  pos : Pos
  text : List Nat
  deriving DecidableEq, Repr

/-- The function `Token::source_pos` (the `HasPos` impl in token.rs). -/
def Token.source_pos (t : Token) : Span :=
  ⟨t.pos, ⟨t.pos.val + t.text.length⟩⟩

/-- Tokenizer state: remaining text and the position of its first byte. -/
structure Tokenizer where
  text : List Nat
  pos : Pos

/-- The function `is_space`: ASCII whitespace (space, `\t`, `\n`, `\v`, `\f`, `\r`). -/
def is_space (c : Nat) : Bool := c == 32 || (9 ≤ c && c ≤ 13)

/-- The function `is_symbol`: bytes that can appear in a normal symbol — ASCII letters,
digits, and the punctuation set of token.rs. -/
def is_symbol (c : Nat) : Bool :=
  (97 ≤ c && c ≤ 122) || (65 ≤ c && c ≤ 90) || (48 ≤ c && c ≤ 57) ||
  c == 45 || c == 33 || c == 36 || c == 37 || c == 38 || c == 42 ||
  c == 43 || c == 46 || c == 47 || c == 58 || c == 60 || c == 61 ||
  c == 62 || c == 63 || c == 64 || c == 94 || c == 95 || c == 126

/-- The function `is_line_break`: CR or LF. -/
def is_line_break (c : Nat) : Bool := c == 10 || c == 13

/-- The function `drop_symbol`: drop the prefix of symbol-class bytes, return the rest. -/
def drop_symbol (text : List Nat) : List Nat :=
  match text.findIdx? (fun c => !is_symbol c) with
  | some idx => text.drop idx
  | none => text

/-- Bytes that start a symbol token: ASCII letters and the symbol-start
punctuation set of `Tokenizer::next` (`+`, `-`, `.` and digits are handled by
their own match arms). -/
def symbol_start (c : Nat) : Bool :=
  (97 ≤ c && c ≤ 122) || (65 ≤ c && c ≤ 90) ||
  c == 33 || c == 36 || c == 37 || c == 38 || c == 42 || c == 47 ||
  c == 58 || c == 60 || c == 61 || c == 62 || c == 63 || c == 64 ||
  c == 94 || c == 95 || c == 126

/-- Is an ASCII digit. -/
def is_digit (c : Nat) : Bool := 48 ≤ c && c ≤ 57

/-- The classification-and-extension step of `Tokenizer::next`, applied to the
first non-whitespace byte `first` with remaining bytes `rest`.  Returns the
token type and the bytes remaining after the token.  In the final wildcard arm
(`_ => Error`), `rest` is left untouched, so an error token always consists of
the single byte `first`. -/
def classify (first : Nat) (rest : List Nat) : TokType × List Nat :=
  if symbol_start first then
    (TokType.Symbol, drop_symbol rest)
  else if is_digit first then
    (TokType.Number, drop_symbol rest)
  else if first == 59 then
    (TokType.Comment,
      match rest.findIdx? is_line_break with
      | some idx => rest.drop idx
      | none => [])
  else if first == 46 then
    let ty := match rest.head? with
      | some c => if is_digit c then TokType.Number else TokType.Symbol
      | none => TokType.Symbol
    (ty, drop_symbol rest)
  else if first == 45 || first == 43 then
    let ty := match rest with
      | c :: rest' =>
        if is_digit c then TokType.Number
        else if c == 46 then
          match rest'.head? with
          | some c2 => if is_digit c2 then TokType.Number else TokType.Symbol
          | none => TokType.Symbol
        else TokType.Symbol
      | [] => TokType.Symbol
    (ty, drop_symbol rest)
  else if first == 40 then (TokType.ParenOpen, rest)
  else if first == 41 then (TokType.ParenClose, rest)
  else (TokType.Error, rest)

/-- The leading whitespace-skipping loop of `Tokenizer::next`: drop
whitespace bytes, advancing the position by one per byte. -/
def skip_space : List Nat → Pos → List Nat × Pos
  | [], pos => ([], pos)
  | c :: rest, pos =>
    if is_space c then skip_space rest ⟨pos.val + 1⟩ else (c :: rest, pos)

/-- The function `Tokenizer::next`: skip whitespace, then classify the first byte and
extend the token.  The token's text is the prefix of the remaining input of
length `text.length - rest.length`. -/
def Tokenizer.next (t : Tokenizer) : Token × Tokenizer :=
  match skip_space t.text t.pos with
  | ([], pos) => (⟨TokType.End, pos, []⟩, ⟨[], pos⟩)
  | (first :: rest, pos) =>
    let (ty, rest') := classify first rest
    let text := first :: rest
    let len := text.length - rest'.length
    let tok : Token := ⟨ty, pos, text.take len⟩
    (tok, ⟨rest', ⟨pos.val + len⟩⟩)

/-! ### sexpr.rs — the incremental s-expression parser.

This is the revision of the parser cited by the claims together with
parser.rs; both have the identical `finish` body.  Diagnostic messages are
modelled by an enumeration rather than strings. -/

/-- A parsed s-expression with its source span.  The Rust
`SExpr { pos, content }` with `enum Content` is flattened into a single
inductive, each constructor carrying the span. -/
inductive SExpr where
  | Symbol (pos : Span) (s : List Nat)
  | Number (pos : Span) (s : List Nat)
  | List (pos : Span) (items : List SExpr)

/-- Diagnostic messages emitted by the parser. -/
inductive Diag where
  | MissingClose   -- the text "missing ')'"
  | ExtraClose     -- the text "extra ')'"
  | UnexpectedChar -- the text "unexpected character"
  deriving DecidableEq, Repr

/-- Parser state: the flat pending-expression vector and the stack of
open-list frames `(open_paren_span, start_index_in_pending)`.  The stack is
modelled with its top (most recently pushed frame) at the head. -/
structure Parser where
  exprs : List SExpr
  groups : List (Span × Nat)

/-- The function `Parser::new`. -/
def Parser.new : Parser := ⟨[], []⟩

/-- A result from running the parser. -/
inductive ParseResult where
  | None
  | Incomplete
  | Error
  | Value (e : SExpr)

/-- The function `Parser::parse` from sexpr.rs: consume tokens until one result is
produced.  The remaining token stream is returned together with the updated
parser state and the diagnostics handed to the error handler; an empty token
list plays the role of the tokenizer's `End` token. -/
def Parser.parse (p : Parser) (toks : List Token) :
    ParseResult × Parser × List Token × List (Span × Diag) :=
  match toks with
  | [] =>
    (if p.groups.isEmpty then ParseResult.None else ParseResult.Incomplete,
     p, [], [])
  | tok :: toks =>
    let pos := tok.source_pos
    match tok.ty with
    | TokType.End =>
      (if p.groups.isEmpty then ParseResult.None else ParseResult.Incomplete,
       p, toks, [])
    | TokType.Error =>
      (ParseResult.Error, p, toks, [(pos, Diag.UnexpectedChar)])
    | TokType.Comment => Parser.parse p toks
    | TokType.Symbol =>
      let expr : SExpr := SExpr.Symbol pos tok.text
      if p.groups.isEmpty then (ParseResult.Value expr, p, toks, [])
      else Parser.parse { p with exprs := p.exprs ++ [expr] } toks
    | TokType.Number =>
      let expr : SExpr := SExpr.Number pos tok.text
      if p.groups.isEmpty then (ParseResult.Value expr, p, toks, [])
      else Parser.parse { p with exprs := p.exprs ++ [expr] } toks
    | TokType.ParenOpen =>
      Parser.parse { p with groups := (pos, p.exprs.length) :: p.groups } toks
    | TokType.ParenClose =>
      match p.groups with
      | (start_pos, offset) :: groups =>
        let items := p.exprs.drop offset
        let expr : SExpr :=
          SExpr.List ⟨start_pos.start, pos.end_⟩ items
        let p' : Parser := ⟨p.exprs.take offset, groups⟩
        if groups.isEmpty then (ParseResult.Value expr, p', toks, [])
        else Parser.parse { p' with exprs := p'.exprs ++ [expr] } toks
      | [] =>
        (ParseResult.Error, p, toks, [(pos, Diag.ExtraClose)])

/-- The function `Parser::finish` from sexpr.rs (identical in parser.rs), translated
verbatim: the loop over `groups.iter().rev()` contains an unconditional
`return` after the first `handle` call, so at most one `missing ')'`
diagnostic is emitted — at the span of the most recently opened frame. -/
def Parser.finish (p : Parser) : List (Span × Diag) :=
  match p.groups with
  | [] => []
  | (pos, _) :: _ => [(pos, Diag.MissingClose)]

/-! ### signal/program.rs — the compiled program and its render loop.

A compiled node's `function` is a boxed trait object.  The shared `State` it
receives exposes only `gate()`, `note()` and `stop(pos)` — its `end` field is
private and is written exclusively through `State::stop` — so a function's
observable behaviour during one render call is determined by the gate, the
note and its input windows, and its effect on the state is the sequence of
`stop` offsets it passes.  A node function is therefore modelled as a map
from `(gate, note, inputs)` to `(output window, stop offsets in call order)`;
its private per-instance state is irrelevant to a single call and elided. -/

/-- A compiled node: its render function and the compiled indices of its
input windows (each strictly less than the node's own index). -/
structure PNode where
  render : Option Nat → ℚ → List (List ℚ) → List ℚ × List Nat
  inputs : List Nat

/-- A program which can render audio. -/
structure Program where
  buffer_size : Nat
  nodes : List PNode
  done : Bool

/-- The node loop of `Program::render`: for each node in order, gather its
input windows from the outputs of earlier nodes, call its render function,
and apply its stop calls to the state through `State::stop`. -/
def runNodes (nodes : List PNode) (gate : Option Nat) (note : ℚ)
    (outputs : List (List ℚ)) (state : State) : List (List ℚ) × State :=
  match nodes with
  | [] => (outputs, state)
  | node :: rest =>
    let ins := node.inputs.map (fun i => outputs.getD i [])
    let (out, stops) := node.render gate note ins
    runNodes rest gate note (outputs ++ [out]) (stops.foldl State.stop state)

/-- The stop offsets passed to `State::stop` during one pass of the node
loop, in call order (an observation of the same loop as `runNodes`). -/
def stopsOf (nodes : List PNode) (gate : Option Nat) (note : ℚ)
    (outputs : List (List ℚ)) : List Nat :=
  match nodes with
  | [] => []
  | node :: rest =>
    let ins := node.inputs.map (fun i => outputs.getD i [])
    let (out, stops) := node.render gate note ins
    stops ++ stopsOf rest gate note (outputs ++ [out])

/-- The function `Program::render`: if the program is done, return no output; otherwise
run the node loop from a fresh state, take the final node's window as the
call's output, and, if a stop offset was recorded, truncate the output to
that prefix and mark the program done.  (With an empty node list the Rust
code panics on `unwrap`; the claims only concern non-empty programs.) -/
def Program.render (p : Program) (input : Input) :
    Option (List ℚ) × Program :=
  if p.done then (none, p)
  else
    let state : State := ⟨input.gate, input.note, none⟩
    let (outputs, state) := runNodes p.nodes input.gate input.note [] state
    let output := outputs.getLastD []
    match state.end_ with
    | some len => (some (output.take len), { p with done := true })
    | none => (some output, p)

/-- Repeatedly call `Program::render` for a sequence of inputs, collecting
each call's output. -/
def Program.renderMany (p : Program) (inputs : List Input) :
    List (Option (List ℚ)) :=
  match inputs with
  | [] => []
  | i :: rest =>
    let (out, p') := p.render i
    out :: p'.renderMany rest

/-! ### wave.rs — the WAV file writer.

The output stream (`dyn SeekWrite`) is modelled as a byte list plus a cursor;
`write_all` overwrites at the cursor (extending the list at its end) and
`seek(Start(0))` resets the cursor.  `f32` sample arithmetic — scaling,
adding the dither, `floor`, comparisons — is modelled exactly over `ℚ`; the
`u32 → f32` conversion of the raw random value is modelled as exact. -/

namespace Wave

/-- Parameters for a WAVE file. -/
structure Parameters where
  channel_count : Nat
  sample_rate : Nat

end Wave

/-- Little-endian encoding of a `u32`. -/
def le32 (x : Nat) : List Nat :=
  [x % 256, x / 256 % 256, x / 65536 % 256, x / 16777216 % 256]

/-- Little-endian encoding of a `u16`. -/
def le16 (x : Nat) : List Nat := [x % 256, x / 256 % 256]

/-- The function `Header::to_bytes`: the 44-byte canonical RIFF/WAVE header.  `u32`
arithmetic wraps mod `2^32`.  The four-character chunk IDs "RIFF", "WAVE",
"fmt " and "data" appear as their ASCII bytes. -/
def headerBytes (frame_count : Nat) (p : Wave.Parameters) : List Nat :=
  let bits_per_byte := 8
  let sample_size_bytes := 2
  let frame_size_bytes := p.channel_count * sample_size_bytes % 4294967296
  let data_length_bytes := frame_count * frame_size_bytes % 4294967296
  [82, 73, 70, 70] ++
  le32 ((data_length_bytes + 36) % 4294967296) ++
  [87, 65, 86, 69] ++
  [102, 109, 116, 32] ++
  le32 16 ++
  le16 1 ++
  le16 (p.channel_count % 65536) ++
  le32 (p.sample_rate % 4294967296) ++
  le32 (p.sample_rate * frame_size_bytes % 4294967296) ++
  le16 (frame_size_bytes % 65536) ++
  le16 (sample_size_bytes * bits_per_byte % 65536) ++
  [100, 97, 116, 97] ++
  le32 data_length_bytes

/-- A seekable output stream: bytes written so far and the cursor. -/
structure WStream where
  data : List Nat
  pos : Nat

/-- The function `write_all`: overwrite `bytes` at the cursor and advance it. -/
def WStream.write_all (s : WStream) (bytes : List Nat) : WStream :=
  ⟨s.data.take s.pos ++ bytes ++ s.data.drop (s.pos + bytes.length),
   s.pos + bytes.length⟩

/-- The function `seek(SeekFrom::Start(0))`. -/
def WStream.seek_start (s : WStream) : WStream := ⟨s.data, 0⟩

/-- The per-sample quantization of `Writer::write`: scale to 16-bit full
scale, add the dither `r`, take the floor, and clamp to the `i16` range. -/
def quantize (x r : ℚ) : Int :=
  let v := Int.floor (x * 32768 + r)
  if v > 32767 then 32767
  else if v < -32768 then -32768
  else v

/-- The function `i16::to_le_bytes`: two's-complement little-endian bytes. -/
def le16i (v : Int) : List Nat := le16 ((v % 65536).toNat)

/-- Encode a run of samples: for each sample draw one random value, scale it
to `[0,1)`, quantize, and emit the two little-endian bytes. -/
def encodeSamples (r : Rand) (xs : List ℚ) : List Nat × Rand :=
  match xs with
  | [] => ([], r)
  | x :: xs =>
    let (u, r') := r.next
    let d : ℚ := (u : ℚ) / 4294967296
    let (rest, r'') := encodeSamples r' xs
    (le16i (quantize x d) ++ rest, r'')

/-- WAVE file writer (`Writer` in wave.rs; `BUFFER_SIZE` is `32 * 1024`). -/
structure Writer where
  stream : WStream
  buf : List Nat
  buf_pos : Nat
  sample_count : Nat
  rand : Rand
  parameters : Wave.Parameters

/-- The function `Writer::from_stream`: a zeroed 32 KiB buffer with the write position
starting at 44, leaving room for the header. -/
def Writer.from_stream (stream : WStream) (parameters : Wave.Parameters) :
    Writer :=
  ⟨stream, List.replicate 32768 0, 44, 0, Rand.with_default_seed, parameters⟩

/-- The body of the chunk loop of `Writer::write`: encode one run of samples
into the buffer at `buf_pos` (the run is chosen by the caller to fit), and
flush the buffer to the stream when it fills exactly. -/
def Writer.writeChunk (w : Writer) (first : List ℚ) : Writer :=
  let (bytes, rand') := encodeSamples w.rand first
  let buf' :=
    w.buf.take w.buf_pos ++ bytes ++
      w.buf.drop (w.buf_pos + 2 * first.length)
  let w' : Writer :=
    { w with
      buf := buf'
      buf_pos := w.buf_pos + 2 * first.length
      sample_count := w.sample_count + first.length
      rand := rand' }
  if w'.buf_pos = 32768 then
    { w' with stream := w'.stream.write_all w'.buf, buf_pos := 0 }
  else w'

/-- The function `Writer::write`: convert samples chunk by chunk into the 32 KiB buffer,
flushing it to the stream whenever it fills.  (The guard `n = 0` cannot fire
in reachable states — `buf_pos` stays even and below the buffer size — and
corresponds to the Rust loop spinning forever.) -/
def Writer.write (w : Writer) (data : List ℚ) : Writer :=
  if _hd : data.isEmpty then w
  else
    let free := (32768 - w.buf_pos) / 2
    let n := min data.length free
    if _hn : n = 0 then w
    else Writer.write (w.writeChunk (data.take n)) (data.drop n)
termination_by data.length
decreasing_by simp only [List.length_drop]; omega

/-- A sequence of `Writer::write` calls. -/
def Writer.writeAll (w : Writer) (calls : List (List ℚ)) : Writer :=
  calls.foldl Writer.write w

/-- The function `Writer::finish`: flush the partial buffer, then seek to the start and
overwrite the first 44 bytes with the header. -/
def Writer.finish (w : Writer) : WStream :=
  let stream :=
    if w.buf_pos > 0 then w.stream.write_all (w.buf.take w.buf_pos)
    else w.stream
  let frame_count :=
    w.sample_count / w.parameters.channel_count % 4294967296
  let header := headerBytes frame_count w.parameters
  let stream := stream.seek_start
  stream.write_all header

/-- The random generator after `i` draws from the default seed. -/
def randAt (i : Nat) : Rand :=
  match i with
  | 0 => Rand.with_default_seed
  | i + 1 => ((randAt i).next).2

/-- The dither value added to the `i`-th sample written through a writer. -/
def ditherAt (i : Nat) : ℚ := (((randAt i).next).1 : ℚ) / 4294967296

/-- The state invariant of a `Writer` that has been fed exactly `samples`
since `from_stream`: the buffer is 32 KiB, the write position is even and
below the buffer size, the stream cursor sits at its end, and the bytes
emitted so far (stream plus pending buffer prefix) are 44 reserved zero bytes
followed by the encoding of the samples with the dither stream threaded
through. -/
def WInv (w : Writer) (samples : List ℚ) : Prop :=
  w.buf.length = 32768 ∧
  w.buf_pos % 2 = 0 ∧
  w.buf_pos < 32768 ∧
  w.stream.pos = w.stream.data.length ∧
  w.stream.data ++ w.buf.take w.buf_pos =
    List.replicate 44 0 ++ (encodeSamples Rand.with_default_seed samples).1 ∧
  w.rand = (encodeSamples Rand.with_default_seed samples).2 ∧
  w.sample_count = samples.length

/-- A one-node example program whose node outputs a four-sample window and
calls `State::stop` twice, at offsets 5 and 3. -/
def exampleProgram : Program :=
  ⟨4, [⟨fun _ _ _ => ([1, 2, 3, 4], [5, 3]), []⟩], false⟩

/-- Example render input: gate held, note 0. -/
def exampleInput : Input := ⟨none, 0⟩

/-! ## Theorems -/

/-- Claim C10 (code bug): `Span::len` should return `end − start`, the byte
length of the half-open range, but its body subtracts `self.end.0` from
itself, so it returns 0 on every span; on the span `[5, 10)` it returns 0
instead of 5. -/
theorem span_len_bug :
    (Span.mk ⟨5⟩ ⟨10⟩).len = 0 ∧
    (Span.mk ⟨5⟩ ⟨10⟩).end_.val - (Span.mk ⟨5⟩ ⟨10⟩).start.val = 5 := by
  exact ⟨rfl, rfl⟩

/-- Claim C2 (code bug): `Units::multiply` is supposed to add exponents
component-wise, but the `radian` and `decibel` additions read `self.volt`
instead of `self.radian`/`self.decibel`.  Evaluated at the failing input
`rad¹ × scalar`: the product is `scalar` (radian exponent lost) rather than
`rad¹`, so the all-zero scalar is not a right identity and multiplication is
not commutative. -/
theorem units_multiply_copy_paste_bug :
    Units.multiply ⟨0, 0, 1, 0⟩ Units.scalar = Except.ok Units.scalar ∧
    Units.multiply Units.scalar ⟨0, 0, 1, 0⟩ = Except.ok ⟨0, 0, 1, 0⟩ ∧
    Units.multiply ⟨0, 0, 1, 0⟩ Units.scalar ≠
      Units.multiply Units.scalar ⟨0, 0, 1, 0⟩ := by
  refine ⟨rfl, rfl, ?_⟩
  show Except.ok (⟨0, 0, 0, 0⟩ : Units) ≠ Except.ok ⟨0, 0, 1, 0⟩
  simp

/-- Claim C1 (code bug): `Oscillator::instantiate` ignores its `Parameters`
argument and stores the fixed phase-increment scale `1.0 / 48000.0`.
Evaluated at the failing input `sample_rate = 44100`: the instantiated scale
is `1/48000`, not `1/44100`, and instantiating at 96000 Hz produces the very
same scale — the increment does not depend on the configured sample rate. -/
theorem oscillator_fixed_scale_bug :
    (Oscillator.instantiate ⟨44100, 1024⟩).scale = 1 / 48000 ∧
    ((1 : ℚ) / 48000) ≠ 1 / 44100 ∧
    (Oscillator.instantiate ⟨44100, 1024⟩).scale =
      (Oscillator.instantiate ⟨96000, 1024⟩).scale := by
  refine ⟨rfl, by norm_num, rfl⟩

/-- Claim C6 (code bug): `NoiseF` is a fieldless unit struct, so a noise
instance carries no per-instance random number generator at all — any two
instantiated noise functions are identical.  (Its `render` body instead calls
`state.rand()` on the shared render `State`, a method that `State` in
signal/program.rs does not define.) -/
theorem noise_instance_stateless (a b : NoiseF) : a = b := rfl

/-- Claim C3 (code bug): in the `LowPass4` arm of `StateVariableF::render`
both stages are fed the **original** input buffer and the second stage
overwrites the first stage's output, so the node is not a cascade.  Evaluated
at the failing input (unit impulse, frequency coefficient ½, Q coefficient 1,
zero states, `sin` abstracted as the identity): the code outputs `[1/4]`
— a single low-pass stage applied to the input — while a true cascade
(second stage applied to the first stage's output) yields `[1/16]`. -/
theorem lowPass4_not_cascade_bug :
    (StateVariableF.render ⟨⟨0, 0⟩, ⟨0, 0⟩, 1, Mode.LowPass4, 1⟩
        id [1] [1]).1 = [1/4] ∧
    (SVF.render ⟨0, 0⟩
        ((SVF.render ⟨0, 0⟩ [1] [1/2] 1 SVFMode.LowPass).1)
        [1/2] 1 SVFMode.LowPass).1 = [1/16] ∧
    ([1/4] : List ℚ) ≠ [1/16] := by
  refine ⟨?_, ?_, ?_⟩
  · simp only [StateVariableF.render, SVF.render, SVF.step, List.map]
    norm_num
  · simp only [SVF.render, SVF.step]
    norm_num
  · norm_num

/-- Claim C7 counterexample: after the token stream `((` ends, the parser has
two unclosed open-list frames, but `finish()` emits one `missing ')'`
diagnostic, not two — the loop body returns unconditionally after the first
frame. -/
theorem parser_finish_single_diag_cex :
    (((Parser.parse Parser.new
        [⟨TokType.ParenOpen, ⟨1⟩, [40]⟩,
         ⟨TokType.ParenOpen, ⟨2⟩, [40]⟩]).2.1).groups.length = 2) ∧
    ((Parser.finish ((Parser.parse Parser.new
        [⟨TokType.ParenOpen, ⟨1⟩, [40]⟩,
         ⟨TokType.ParenOpen, ⟨2⟩, [40]⟩]).2.1)).length = 1) := by
  exact ⟨rfl, rfl⟩

/-- Claim C7 (amended): for every parser state with at least one unclosed
open-list frame remaining when the token stream ends, `finish()` emits
exactly one `missing ')'` diagnostic, at the span of the most recently
opened unmatched parenthesis. -/
theorem parser_finish_emits_one (p : Parser) (g : Span × Nat)
    (gs : List (Span × Nat)) (h : p.groups = g :: gs) :
    Parser.finish p = [(g.1, Diag.MissingClose)] := by
  unfold Parser.finish
  rw [h]

/-- Witness for `parser_finish_emits_one` at a concrete one-frame state. -/
theorem parser_finish_emits_one_witness :
    Parser.finish ⟨[], [(⟨⟨1⟩, ⟨2⟩⟩, 0)]⟩ =
      [(⟨⟨1⟩, ⟨2⟩⟩, Diag.MissingClose)] :=
  parser_finish_emits_one ⟨[], [(⟨⟨1⟩, ⟨2⟩⟩, 0)]⟩ (⟨⟨1⟩, ⟨2⟩⟩, 0) [] rfl

/-- Claim C8 counterexample: on the truncated 3-byte UTF-8 sequence
`E0 A0` the shared scanner `parse_character` reports a malformed sequence of
length 2, but the tokenizer's error token contains only the single first
byte — its length is 1, not the scanner's length. -/
theorem tokenizer_error_len_cex :
    ((Tokenizer.next ⟨[224, 160], ⟨1⟩⟩).1).ty = TokType.Error ∧
    ((Tokenizer.next ⟨[224, 160], ⟨1⟩⟩).1).text.length = 1 ∧
    (parse_character [224, 160]).2 = 2 := by
  refine ⟨rfl, rfl, rfl⟩

/-- In `classify`, the only arm that produces an `Error` token is the final
wildcard, which leaves the remaining input untouched. -/
theorem classify_error_rest (first : Nat) (rest : List Nat)
    (h : (classify first rest).1 = TokType.Error) :
    (classify first rest).2 = rest := by
  unfold classify at h ⊢
  split_ifs at h ⊢ <;>
    (repeat' split at h) <;>
    simp_all

/-- Claim C8 (amended): for every tokenizer state, if `next()` produces an
`Error` token then that token's text is exactly the single offending byte —
its length is always 1, whatever the length of the malformed UTF-8 sequence
that `parse_character` would report. -/
theorem tokenizer_error_token_one_byte (t : Tokenizer)
    (h : ((Tokenizer.next t).1).ty = TokType.Error) :
    ((Tokenizer.next t).1).text.length = 1 := by
  unfold Tokenizer.next at h ⊢
  rcases hs : skip_space t.text t.pos with ⟨text', pos'⟩
  rw [hs] at h
  cases text' with
  | nil => simp at h
  | cons first rest =>
    dsimp only at h ⊢
    rcases hc : classify first rest with ⟨ty, rest'⟩
    dsimp only at h ⊢
    have h2 := classify_error_rest first rest h
    rw [hc] at h2
    dsimp only at h2
    subst h2
    simp [List.length_take]

/-- Witness for `tokenizer_error_token_one_byte` at the input byte `0xFF`. -/
theorem tokenizer_error_token_one_byte_witness :
    ((Tokenizer.next ⟨[255], ⟨1⟩⟩).1).text.length = 1 :=
  tokenizer_error_token_one_byte ⟨[255], ⟨1⟩⟩ rfl

/-- The function `linearRun` emits `n` samples. -/
theorem linearRun_length (cur delta : ℚ) (n : Nat) :
    (linearRun cur delta n).1.length = n := by
  induction n generalizing cur with
  | zero => rfl
  | succ n ih => simp [linearRun, ih]

/-- The final accumulator of `linearRun` after `n` additions of `delta`. -/
theorem linearRun_final (cur delta : ℚ) (n : Nat) :
    (linearRun cur delta n).2 = cur + n * delta := by
  induction n generalizing cur with
  | zero => simp [linearRun]
  | succ n ih =>
    simp only [linearRun, ih]
    push_cast
    ring

/-- The `i`-th sample emitted by `linearRun` is the accumulator after `i + 1`
additions of `delta`. -/
theorem linearRun_get (cur delta : ℚ) (n i : Nat) (h : i < n) :
    (linearRun cur delta n).1.get? i = some (cur + (i + 1) * delta) := by
  induction n generalizing cur i with
  | zero => omega
  | succ n ih =>
    cases i with
    | zero => simp [linearRun]
    | succ i =>
      have hi : i < n := by omega
      simp only [linearRun, List.get?_cons_succ, ih (cur + delta) i hi]
      congr 1
      push_cast
      ring

/-- The function `linearRun` over `a + b` steps splits into `a` steps followed by `b` steps
from the advanced accumulator. -/
theorem linearRun_split (cur delta : ℚ) (a b : Nat) :
    (linearRun cur delta (a + b)).1 =
      (linearRun cur delta a).1 ++
        (linearRun (cur + a * delta) delta b).1 := by
  induction a generalizing cur with
  | zero => simp [linearRun]
  | succ a ih =>
    have hs : a + 1 + b = (a + b) + 1 := by omega
    rw [hs]
    simp only [linearRun, ih (cur + delta), List.cons_append]
    congr 3
    push_cast
    ring_nf

/-- Rendering the `Constant` generator over any sequence of buffers emits the
constant everywhere and leaves the generator unchanged. -/
theorem renderSeq_constant (t : ℚ) (bs : List Nat) :
    Generator.renderSeq (Generator.Constant t) bs =
      (List.replicate bs.sum t, Generator.Constant t) := by
  induction bs with
  | nil => rfl
  | cons b rest ih =>
    simp only [Generator.renderSeq, Generator.render, List.length_replicate,
      ih, List.sum_cons]
    rw [← List.replicate_add]

/-- One render call of the `Linear` generator on a zero buffer that is
shorter than the remaining sample count: every sample advances the
accumulator and the generator stays `Linear` with the remaining time. -/
theorem render_linear_short (v delta t : ℚ) (time L : Nat)
    (hL : L < time) :
    Generator.render (Generator.Linear v delta time t)
        (List.replicate L 0) =
      ((linearRun v delta L).1,
       Generator.Linear (v + L * delta) delta (time - L) t) := by
  have hn : min time L = L := by omega
  simp only [Generator.render, List.length_replicate, hn]
  rcases hr : linearRun v delta L with ⟨outs, cur⟩
  have hc : cur = v + L * delta := by
    have := linearRun_final v delta L
    rw [hr] at this
    exact this
  rw [if_pos hL, List.drop_replicate, hc]
  simp

/-- One render call of the `Linear` generator on a zero buffer that covers
the remaining sample count: the segment is exhausted, the rest of the buffer
is filled with the target, and the generator becomes `Constant target`. -/
theorem render_linear_exhaust (v delta t : ℚ) (time L : Nat)
    (hL : time ≤ L) :
    Generator.render (Generator.Linear v delta time t)
        (List.replicate L 0) =
      ((linearRun v delta time).1 ++ List.replicate (L - time) t,
       Generator.Constant t) := by
  have hn : min time L = time := by omega
  simp only [Generator.render, List.length_replicate, hn]
  rcases hr : linearRun v delta time with ⟨outs, cur⟩
  rw [if_neg (by omega)]

/-- The concatenated output of the `Linear` generator over any partition of
buffers: `min time total` samples of the running accumulator followed by the
target. -/
theorem renderSeq_linear (delta t : ℚ) (bs : List Nat) :
    ∀ (v : ℚ) (time : Nat),
      (Generator.renderSeq (Generator.Linear v delta time t) bs).1 =
        (linearRun v delta (min time bs.sum)).1 ++
          List.replicate (bs.sum - time) t := by
  induction bs with
  | nil => intro v time; simp [Generator.renderSeq, linearRun]
  | cons L rest ih =>
    intro v time
    simp only [Generator.renderSeq, List.sum_cons]
    by_cases hL : L < time
    · rw [render_linear_short v delta t time L hL]
      dsimp only
      rw [ih]
      have h1 : min time (L + rest.sum) = L + min (time - L) rest.sum := by
        omega
      have h2 : rest.sum - (time - L) = L + rest.sum - time := by omega
      rw [h1, linearRun_split, h2, List.append_assoc]
    · rw [render_linear_exhaust v delta t time L (by omega)]
      dsimp only
      rw [renderSeq_constant]
      have h1 : min time (L + rest.sum) = time := by omega
      have h2 : L - time + rest.sum = L + rest.sum - time := by omega
      rw [h1, List.append_assoc, ← List.replicate_add, h2]

/-- If the renders cover at least the declared sample count (and at least one
render call happens), the `Linear` generator has been replaced by
`Constant target`. -/
theorem renderSeq_linear_final (delta t : ℚ) (bs : List Nat) :
    ∀ (v : ℚ) (time : Nat), bs ≠ [] → time ≤ bs.sum →
      (Generator.renderSeq (Generator.Linear v delta time t) bs).2 =
        Generator.Constant t := by
  induction bs with
  | nil => intro v time h; exact absurd rfl h
  | cons L rest ih =>
    intro v time _ hsum
    simp only [Generator.renderSeq]
    by_cases hL : L < time
    · rw [render_linear_short v delta t time L hL]
      dsimp only
      have hne : rest ≠ [] := by
        rcases rest with _ | _
        · simp only [List.sum_cons, List.sum_nil] at hsum; omega
        · simp
      have hle : time - L ≤ rest.sum := by
        simp only [List.sum_cons] at hsum; omega
      exact ih (v + L * delta) (time - L) hne hle
    · rw [render_linear_exhaust v delta t time L (by omega)]
      dsimp only
      rw [renderSeq_constant]

/-- Claim C5: for every envelope `Linear` generator with declared sample
count `n` and target `t`, and every partition of the rendered samples into
render buffers, each of the first `n` emitted samples is the accumulator
after one more `cur += Δ` step, and every sample from index `n` onward is
exactly the target `t` (so `|value − t| = 0 ≤ ε` there); moreover once the
renders cover the declared count the generator has been replaced by
`Constant target`. -/
theorem envelope_linear_spec (v delta t : ℚ) (n : Nat) (bs : List Nat)
    (i : Nat) (h : i < bs.sum) :
    ((Generator.renderSeq (Generator.Linear v delta n t) bs).1.getD i 0 =
      if i < n then v + (i + 1) * delta else t) ∧
    (n ≤ bs.sum →
      (Generator.renderSeq (Generator.Linear v delta n t) bs).2 =
        Generator.Constant t) := by
  have hne : bs ≠ [] := by
    intro he
    rw [he] at h
    simp at h
  refine ⟨?_, fun hn => renderSeq_linear_final delta t bs v n hne hn⟩
  rw [renderSeq_linear]
  by_cases hi : i < n
  · rw [if_pos hi]
    have hi' : i < min n bs.sum := by omega
    rw [List.getD_append _ _ _ _ (by rw [linearRun_length]; omega)]
    rw [List.getD_eq_getD_get?, linearRun_get v delta (min n bs.sum) i hi']
    rfl
  · rw [if_neg hi]
    have hmin : min n bs.sum = n := by omega
    rw [hmin]
    rw [List.getD_append_right _ _ _ _ (by rw [linearRun_length]; omega)]
    rw [linearRun_length]
    rw [List.getD_eq_getElem _ _ (by simp [List.length_replicate]; omega)]
    simp

/-- Witness for `envelope_linear_spec`: a three-sample run (buffers of sizes
1 and 2) of a two-sample linear ramp; the third sample is exactly the
target. -/
theorem envelope_linear_spec_witness :
    (2 : Nat) < [1, 2].sum ∧
    (((Generator.renderSeq (Generator.Linear 0 (1/2) 2 7) [1, 2]).1.getD 2 0 =
        if 2 < 2 then (0 : ℚ) + (((2 : Nat) : ℚ) + 1) * (1/2) else 7) ∧
      (2 ≤ [1, 2].sum →
        (Generator.renderSeq (Generator.Linear 0 (1/2) 2 7) [1, 2]).2 =
          Generator.Constant 7)) :=
  ⟨by decide, envelope_linear_spec 0 (1/2) 7 2 [1, 2] 2 (by decide)⟩

/-- Folding `State::stop` from a state that already has an end offset keeps
the minimum of the old offset and every stop offset. -/
theorem foldl_stop_some (g : Option Nat) (nt : ℚ) (stops : List Nat) :
    ∀ x : Nat,
      (stops.foldl State.stop ⟨g, nt, some x⟩).end_ =
        (x :: stops).min? := by
  induction stops with
  | nil => intro x; rfl
  | cons p rest ih =>
    intro x
    have hstep : State.stop ⟨g, nt, some x⟩ p = ⟨g, nt, some (min p x)⟩ := rfl
    rw [List.foldl_cons, hstep, ih (min p x)]
    rw [List.min?_cons', List.min?_cons', List.foldl_cons]
    rw [Nat.min_comm p x]

/-- Folding `State::stop` from a fresh state records exactly the minimum of
the stop offsets (and `none` when there are none). -/
theorem foldl_stop_none (g : Option Nat) (nt : ℚ) (stops : List Nat) :
    (stops.foldl State.stop ⟨g, nt, none⟩).end_ = stops.min? := by
  cases stops with
  | nil => rfl
  | cons p rest =>
    have hstep : State.stop ⟨g, nt, none⟩ p = ⟨g, nt, some p⟩ := rfl
    simp only [List.foldl_cons, hstep, foldl_stop_some]

/-- The state produced by the node loop is the initial state with every stop
offset of the pass folded in through `State::stop`. -/
theorem runNodes_state (g : Option Nat) (nt : ℚ) :
    ∀ (nodes : List PNode) (outs : List (List ℚ)) (st : State),
      (runNodes nodes g nt outs st).2 =
        (stopsOf nodes g nt outs).foldl State.stop st := by
  intro nodes
  induction nodes with
  | nil => intro outs st; rfl
  | cons node rest ih =>
    intro outs st
    simp only [runNodes, stopsOf, List.foldl_append]
    exact ih _ _

/-- A program that has observed a stop never produces output again: every
further render call returns `None` and leaves the program unchanged. -/
theorem renderMany_done (q : Program) (hq : q.done = true) :
    ∀ future : List Input,
      q.renderMany future = List.replicate future.length none := by
  intro future
  induction future with
  | nil => rfl
  | cons i rest ih =>
    have hr : q.render i = (none, q) := by
      simp [Program.render, hq]
    simp only [Program.renderMany, hr, ih, List.length_cons]
    rfl

/-- Claim C4: during one render call the recorded end offset is the minimum
of all stop offsets passed to `State::stop`; when no node stops, the call
returns the final node's full window and the program is unchanged; when the
minimum is `k`, the call returns the prefix `[..k]` of the final node's
window, marks the program done, and every subsequent render call returns
`None`. -/
theorem program_render_stop (p : Program) (inp : Input)
    (h1 : p.done = false) (h2 : p.nodes ≠ []) :
    (stopsOf p.nodes inp.gate inp.note [] = [] →
      p.render inp =
        (some ((runNodes p.nodes inp.gate inp.note []
            ⟨inp.gate, inp.note, none⟩).1.getLastD []), p)) ∧
    (∀ k, (stopsOf p.nodes inp.gate inp.note []).min? = some k →
      (p.render inp).1 =
        some (((runNodes p.nodes inp.gate inp.note []
            ⟨inp.gate, inp.note, none⟩).1.getLastD []).take k) ∧
      (p.render inp).2.done = true ∧
      ∀ future : List Input,
        (p.render inp).2.renderMany future =
          List.replicate future.length none) := by
  have hrender :
      p.render inp =
        match (runNodes p.nodes inp.gate inp.note []
            ⟨inp.gate, inp.note, none⟩).2.end_ with
        | some len =>
          (some (((runNodes p.nodes inp.gate inp.note []
              ⟨inp.gate, inp.note, none⟩).1.getLastD []).take len),
           { p with done := true })
        | none =>
          (some ((runNodes p.nodes inp.gate inp.note []
              ⟨inp.gate, inp.note, none⟩).1.getLastD []), p) := by
    simp only [Program.render, h1, Bool.false_eq_true, if_false]
  have hend :
      (runNodes p.nodes inp.gate inp.note []
          ⟨inp.gate, inp.note, none⟩).2.end_ =
        (stopsOf p.nodes inp.gate inp.note []).min? := by
    rw [runNodes_state, foldl_stop_none]
  constructor
  · intro hstops
    rw [hrender, hend, hstops]
    rfl
  · intro k hk
    rw [hrender, hend, hk]
    exact ⟨rfl, rfl, renderMany_done { p with done := true } rfl⟩

/-- Witness for `program_render_stop` on the one-node example program that
stops at offsets 5 and 3: the call returns the three-sample prefix. -/
theorem program_render_stop_witness :
    (stopsOf exampleProgram.nodes exampleInput.gate exampleInput.note [] = [] →
      exampleProgram.render exampleInput =
        (some ((runNodes exampleProgram.nodes exampleInput.gate
            exampleInput.note []
            ⟨exampleInput.gate, exampleInput.note, none⟩).1.getLastD []),
         exampleProgram)) ∧
    (∀ k, (stopsOf exampleProgram.nodes exampleInput.gate
          exampleInput.note []).min? = some k →
      (exampleProgram.render exampleInput).1 =
        some (((runNodes exampleProgram.nodes exampleInput.gate
            exampleInput.note []
            ⟨exampleInput.gate, exampleInput.note, none⟩).1.getLastD []).take k) ∧
      (exampleProgram.render exampleInput).2.done = true ∧
      ∀ future : List Input,
        (exampleProgram.render exampleInput).2.renderMany future =
          List.replicate future.length none) :=
  program_render_stop exampleProgram exampleInput rfl
    (by simp [exampleProgram])

/-- Each 16-bit sample encodes to exactly two bytes. -/
theorem le16i_length (v : Int) : (le16i v).length = 2 := rfl

/-- The function `encodeSamples` emits two bytes per sample. -/
theorem encodeSamples_length (r : Rand) (xs : List ℚ) :
    (encodeSamples r xs).1.length = 2 * xs.length := by
  induction xs generalizing r with
  | nil => rfl
  | cons x xs ih =>
    simp only [encodeSamples, List.length_append, le16i_length, ih,
      List.length_cons]
    ring

/-- The function `encodeSamples` over an appended list splits at the boundary, threading
the generator state. -/
theorem encodeSamples_append (r : Rand) (xs ys : List ℚ) :
    encodeSamples r (xs ++ ys) =
      ((encodeSamples r xs).1 ++
        (encodeSamples (encodeSamples r xs).2 ys).1,
       (encodeSamples (encodeSamples r xs).2 ys).2) := by
  induction xs generalizing r with
  | nil => rfl
  | cons x xs ih =>
    simp only [List.cons_append, encodeSamples, List.append_eq, ih,
      List.append_assoc]

/-- The raw PCG output is a 32-bit value. -/
theorem rand_next_fst_lt (r : Rand) : (r.next).1 < 4294967296 := by
  simp only [Rand.next, rotr32]
  exact Nat.mod_lt _ (by norm_num)

/-- Every dither value lies in `[0, 1)`. -/
theorem ditherAt_mem (i : Nat) : 0 ≤ ditherAt i ∧ ditherAt i < 1 := by
  constructor
  · unfold ditherAt
    positivity
  · unfold ditherAt
    rw [div_lt_one (by norm_num)]
    have h := rand_next_fst_lt (randAt i)
    exact_mod_cast h

/-- The two bytes at sample index `i` of an encoding run started at the
`k`-th generator state are the quantization of the `i`-th sample with the
`(k+i)`-th dither value. -/
theorem encodeSamples_at (xs : List ℚ) :
    ∀ (k i : Nat) (x : ℚ), xs.get? i = some x →
      (((encodeSamples (randAt k) xs).1.drop (2 * i)).take 2) =
        le16i (quantize x (ditherAt (k + i))) := by
  induction xs with
  | nil => intro k i x h; simp at h
  | cons y ys ih =>
    intro k i x h
    have hstep : encodeSamples (randAt k) (y :: ys) =
        (le16i (quantize y (ditherAt k)) ++
          (encodeSamples (randAt (k + 1)) ys).1,
         (encodeSamples (randAt (k + 1)) ys).2) := by
      simp [encodeSamples, randAt, ditherAt]
    cases i with
    | zero =>
      simp only [List.get?_cons_zero, Option.some.injEq] at h
      subst h
      rw [hstep]
      dsimp only
      simp only [Nat.mul_zero, List.drop_zero, Nat.add_zero]
      rw [List.take_append_of_le_length (by simp [le16i_length])]
      rw [List.take_of_length_le (by simp [le16i_length])]
    | succ i =>
      simp only [List.get?_cons_succ] at h
      rw [hstep]
      dsimp only
      rw [List.drop_append_eq_append_drop, le16i_length]
      rw [List.drop_eq_nil_of_le (by rw [le16i_length]; omega)]
      rw [List.nil_append]
      rw [show 2 * (i + 1) - 2 = 2 * i from by omega]
      rw [show k + (i + 1) = (k + 1) + i from by omega]
      exact ih (k + 1) i x h

/-- A fresh writer on an empty stream satisfies the invariant with no samples
written. -/
theorem from_stream_inv (params : Wave.Parameters) :
    WInv (Writer.from_stream ⟨[], 0⟩ params) [] := by
  unfold WInv Writer.from_stream
  dsimp only
  refine ⟨List.length_replicate 32768 0, by norm_num, by norm_num, rfl,
    ?_, rfl, rfl⟩
  rw [List.nil_append, List.take_replicate]
  show List.replicate (min 44 32768) (0 : Nat) = List.replicate 44 0 ++ []
  rw [List.append_nil]
  norm_num

/-- One chunk-loop iteration preserves the writer invariant, provided the
chunk fits in the buffer. -/
theorem writeChunk_inv (w : Writer) (xs first : List ℚ)
    (hinv : WInv w xs)
    (hfit : w.buf_pos + 2 * first.length ≤ 32768) :
    WInv (w.writeChunk first) (xs ++ first) := by
  obtain ⟨hbl, hb2, hblt, hpos, hdata, hrand, hcount⟩ := hinv
  have henc := encodeSamples_append Rand.with_default_seed xs first
  rw [← hrand] at henc
  have hblen : (encodeSamples w.rand first).1.length = 2 * first.length :=
    encodeSamples_length w.rand first
  unfold Writer.writeChunk
  rcases he : encodeSamples w.rand first with ⟨bytes, rand'⟩
  rw [he] at henc hblen
  dsimp only at henc hblen ⊢
  have htl : (w.buf.take w.buf_pos).length = w.buf_pos := by
    simp only [List.length_take, hbl]
    omega
  have habl : (w.buf.take w.buf_pos ++ bytes).length =
      w.buf_pos + 2 * first.length := by
    simp only [List.length_append, htl, hblen]
  have hnewlen :
      (w.buf.take w.buf_pos ++ bytes ++
        w.buf.drop (w.buf_pos + 2 * first.length)).length = 32768 := by
    simp only [List.length_append, htl, hblen, List.length_drop, hbl]
    omega
  have htake :
      (w.buf.take w.buf_pos ++ bytes ++
          w.buf.drop (w.buf_pos + 2 * first.length)).take
        (w.buf_pos + 2 * first.length) =
      w.buf.take w.buf_pos ++ bytes := by
    rw [List.take_append_eq_append_take]
    rw [List.take_of_length_le (by rw [habl])]
    rw [habl, Nat.sub_self, List.take_zero, List.append_nil]
  have hprefix :
      w.stream.data ++ (w.buf.take w.buf_pos ++ bytes) =
        List.replicate 44 0 ++
          (encodeSamples Rand.with_default_seed (xs ++ first)).1 := by
    rw [← List.append_assoc, hdata, henc, List.append_assoc]
  have hrand2 :
      rand' = (encodeSamples Rand.with_default_seed (xs ++ first)).2 := by
    rw [henc]
  have hcount2 : w.sample_count + first.length = (xs ++ first).length := by
    rw [hcount, List.length_append]
  by_cases hfull : w.buf_pos + 2 * first.length = 32768
  · rw [if_pos hfull]
    have hsd :
        (WStream.write_all w.stream
            (w.buf.take w.buf_pos ++ bytes ++
              w.buf.drop (w.buf_pos + 2 * first.length))).data =
          w.stream.data ++
            (w.buf.take w.buf_pos ++ bytes ++
              w.buf.drop (w.buf_pos + 2 * first.length)) := by
      unfold WStream.write_all
      dsimp only
      rw [hpos, List.take_length]
      rw [List.drop_eq_nil_of_le (Nat.le_add_right _ _), List.append_nil]
    have hnb :
        w.buf.take w.buf_pos ++ bytes ++
            w.buf.drop (w.buf_pos + 2 * first.length) =
          w.buf.take w.buf_pos ++ bytes := by
      rw [hfull, List.drop_eq_nil_of_le (by rw [hbl]), List.append_nil]
    have hsp :
        (WStream.write_all w.stream
            (w.buf.take w.buf_pos ++ bytes ++
              w.buf.drop (w.buf_pos + 2 * first.length))).pos =
          w.stream.data.length +
            (w.buf.take w.buf_pos ++ bytes ++
              w.buf.drop (w.buf_pos + 2 * first.length)).length := by
      unfold WStream.write_all
      dsimp only
      rw [hpos]
    refine ⟨hnewlen, rfl, by norm_num, ?_, ?_, hrand2, hcount2⟩
    · dsimp only
      rw [hsp, hsd]
      simp [List.length_append]
    · dsimp only
      rw [List.take_zero, List.append_nil, hsd, hnb, hprefix]
  · rw [if_neg hfull]
    refine ⟨hnewlen, by dsimp only; omega, by dsimp only; omega, hpos,
      ?_, hrand2, hcount2⟩
    show w.stream.data ++
        (w.buf.take w.buf_pos ++ bytes ++
          w.buf.drop (w.buf_pos + 2 * first.length)).take
          (w.buf_pos + 2 * first.length) =
      List.replicate 44 0 ++
        (encodeSamples Rand.with_default_seed (xs ++ first)).1
    rw [htake, hprefix]

/-- The function `Writer::write` preserves the writer invariant, extending the recorded
samples by the written data (stated with an explicit bound for the strong
induction on the data length). -/
theorem write_inv (k : Nat) :
    ∀ (data : List ℚ), data.length ≤ k → ∀ (w : Writer) (xs : List ℚ),
      WInv w xs → WInv (w.write data) (xs ++ data) := by
  induction k with
  | zero =>
    intro data hlen w xs hinv
    have hd : data = [] := List.eq_nil_of_length_eq_zero (by omega)
    subst hd
    rw [Writer.write]
    simpa using hinv
  | succ k ih =>
    intro data hlen w xs hinv
    rw [Writer.write]
    dsimp only
    split_ifs with hd hn
    · have hde : data = [] := List.isEmpty_iff.mp hd
      subst hde
      simpa using hinv
    · exfalso
      obtain ⟨hbl, hb2, hblt, _, _, _, _⟩ := hinv
      have hdlen : 0 < data.length := by
        cases data with
        | nil => simp at hd
        | cons a l => simp
      omega
    · have hn' : 0 < min data.length ((32768 - w.buf_pos) / 2) :=
        Nat.pos_of_ne_zero hn
      have hfit :
          w.buf_pos +
            2 * (data.take (min data.length ((32768 - w.buf_pos) / 2))).length
            ≤ 32768 := by
        obtain ⟨hbl, hb2, hblt, _, _, _, _⟩ := hinv
        simp only [List.length_take]
        omega
      have hchunk := writeChunk_inv w xs
        (data.take (min data.length ((32768 - w.buf_pos) / 2))) hinv hfit
      have hrest := ih
        (data.drop (min data.length ((32768 - w.buf_pos) / 2)))
        (by simp only [List.length_drop]; omega)
        (w.writeChunk (data.take (min data.length ((32768 - w.buf_pos) / 2))))
        (xs ++ data.take (min data.length ((32768 - w.buf_pos) / 2)))
        hchunk
      rw [show xs ++ data =
          (xs ++ data.take (min data.length ((32768 - w.buf_pos) / 2))) ++
            data.drop (min data.length ((32768 - w.buf_pos) / 2)) from by
        rw [List.append_assoc, List.take_append_drop]]
      exact hrest

/-- A sequence of `Writer::write` calls preserves the invariant, recording
the flattened samples. -/
theorem writeAll_inv (calls : List (List ℚ)) :
    ∀ (w : Writer) (xs : List ℚ), WInv w xs →
      WInv (w.writeAll calls) (xs ++ calls.flatten) := by
  induction calls with
  | nil =>
    intro w xs h
    simpa [Writer.writeAll] using h
  | cons c rest ih =>
    intro w xs h
    have h1 := write_inv c.length c (le_refl _) w xs h
    have h2 := ih (w.write c) (xs ++ c) h1
    simpa [Writer.writeAll, List.flatten_cons, List.append_assoc] using h2

/-- The serialized header is exactly 44 bytes. -/
theorem headerBytes_length (fc : Nat) (p : Wave.Parameters) :
    (headerBytes fc p).length = 44 := by
  simp [headerBytes, le32, le16]

/-- The function `Writer::finish` on a writer satisfying the invariant produces the
header followed by the encoded samples. -/
theorem finish_spec (w : Writer) (samples : List ℚ) (hinv : WInv w samples) :
    (w.finish).data =
      headerBytes (w.sample_count / w.parameters.channel_count % 4294967296)
          w.parameters ++
        (encodeSamples Rand.with_default_seed samples).1 := by
  obtain ⟨hbl, hb2, hblt, hpos, hdata, hrand, hcount⟩ := hinv
  unfold Writer.finish
  dsimp only
  have hflush :
      (if w.buf_pos > 0 then w.stream.write_all (w.buf.take w.buf_pos)
        else w.stream).data =
        w.stream.data ++ w.buf.take w.buf_pos := by
    by_cases hbp : w.buf_pos > 0
    · rw [if_pos hbp]
      unfold WStream.write_all
      dsimp only
      rw [hpos, List.take_length]
      rw [List.drop_eq_nil_of_le (Nat.le_add_right _ _), List.append_nil]
    · rw [if_neg hbp]
      have hz : w.buf_pos = 0 := by omega
      rw [hz, List.take_zero, List.append_nil]
  set s1 := if w.buf_pos > 0 then w.stream.write_all (w.buf.take w.buf_pos)
    else w.stream with hs1
  unfold WStream.seek_start WStream.write_all
  dsimp only
  rw [List.take_zero, List.nil_append, Nat.zero_add]
  rw [hflush, hdata]
  rw [List.drop_left' (by rw [List.length_replicate, headerBytes_length])]

/-- The chunk step never touches the writer's parameters. -/
theorem writeChunk_params (w : Writer) (first : List ℚ) :
    (w.writeChunk first).parameters = w.parameters := by
  unfold Writer.writeChunk
  rcases encodeSamples w.rand first with ⟨bytes, rand'⟩
  dsimp only
  split_ifs <;> rfl

/-- The function `Writer::write` never touches the writer's parameters. -/
theorem write_params (k : Nat) :
    ∀ (data : List ℚ), data.length ≤ k → ∀ w : Writer,
      (w.write data).parameters = w.parameters := by
  induction k with
  | zero =>
    intro data hlen w
    have hd : data = [] := List.eq_nil_of_length_eq_zero (by omega)
    subst hd
    rw [Writer.write]
    rfl
  | succ k ih =>
    intro data hlen w
    rw [Writer.write]
    dsimp only
    split_ifs with hd hn
    · rfl
    · rfl
    · rw [ih _ (by simp only [List.length_drop]; omega) _]
      exact writeChunk_params w _

/-- A sequence of writes never touches the writer's parameters. -/
theorem writeAll_params (calls : List (List ℚ)) :
    ∀ w : Writer, (w.writeAll calls).parameters = w.parameters := by
  induction calls with
  | nil => intro w; rfl
  | cons c rest ih =>
    intro w
    show ((w.write c).writeAll rest).parameters = w.parameters
    rw [ih, write_params c.length c (le_refl _)]

/-- The header fields for a mono stream of `N` samples: ChunkSize is
`2·N + 36`, the fmt subchunk size is 16, the format code is 1 and the bits
per sample are 16. -/
theorem headerBytes_fields (N : Nat) (p : Wave.Parameters)
    (hcc : p.channel_count = 1) (hN : 2 * N + 36 < 4294967296) :
    ((headerBytes N p).drop 4).take 4 = le32 (2 * N + 36) ∧
    ((headerBytes N p).drop 16).take 4 = le32 16 ∧
    ((headerBytes N p).drop 20).take 2 = le16 1 ∧
    ((headerBytes N p).drop 34).take 2 = le16 16 := by
  have h2 : N * 2 % 4294967296 = 2 * N := by omega
  have h3 : (2 * N + 36) % 4294967296 = 2 * N + 36 := by omega
  refine ⟨?_, ?_, ?_, ?_⟩ <;>
    simp [headerBytes, le32, le16, hcc, h2, h3]

/-- Claim C9: writing any sequence of mono samples through the WAV writer
and finishing produces `44 + 2·N` bytes: a 44-byte RIFF/WAVE header whose
ChunkSize is `2·N + 36`, fmt subchunk size 16, format code 1 and 16 bits per
sample, followed by the `2·N` data bytes; each sample is quantized by adding
one uniform `[0,1)` dither value, flooring, and clamping to
`[-32768, 32767]` (the conversion is `le16i (quantize x r)` with the `i`-th
dither value, which always lies in `[0,1)`). -/
theorem wav_writer_spec (params : Wave.Parameters) (calls : List (List ℚ))
    (hcc : params.channel_count = 1)
    (hN : 2 * calls.flatten.length + 36 < 4294967296) :
    let N := calls.flatten.length
    let file := (((Writer.from_stream ⟨[], 0⟩ params).writeAll calls).finish).data
    file.length = 44 + 2 * N ∧
    file.take 44 = headerBytes N params ∧
    (file.drop 4).take 4 = le32 (2 * N + 36) ∧
    (file.drop 16).take 4 = le32 16 ∧
    (file.drop 20).take 2 = le16 1 ∧
    (file.drop 34).take 2 = le16 16 ∧
    file.drop 44 = (encodeSamples Rand.with_default_seed calls.flatten).1 ∧
    (∀ i x, calls.flatten.get? i = some x →
      ((file.drop 44).drop (2 * i)).take 2 =
        le16i (quantize x (ditherAt i))) ∧
    (∀ i, 0 ≤ ditherAt i ∧ ditherAt i < 1) := by
  intro N file
  have hinv := writeAll_inv calls (Writer.from_stream ⟨[], 0⟩ params) []
    (from_stream_inv params)
  rw [List.nil_append] at hinv
  have hsc : ((Writer.from_stream ⟨[], 0⟩ params).writeAll calls).sample_count
      = N := hinv.2.2.2.2.2.2
  have hpar : ((Writer.from_stream ⟨[], 0⟩ params).writeAll calls).parameters
      = params := writeAll_params calls _
  have hfile : file = headerBytes N params ++
      (encodeSamples Rand.with_default_seed calls.flatten).1 := by
    show (((Writer.from_stream ⟨[], 0⟩ params).writeAll calls).finish).data = _
    rw [finish_spec _ _ hinv, hsc, hpar, hcc, Nat.div_one,
      Nat.mod_eq_of_lt (by omega)]
  have hextract : ∀ a b : Nat, a + b ≤ 44 →
      (file.drop a).take b = ((headerBytes N params).drop a).take b := by
    intro a b hab
    rw [hfile]
    rw [List.drop_append_of_le_length (by rw [headerBytes_length]; omega)]
    rw [List.take_append_of_le_length
      (by simp only [List.length_drop, headerBytes_length]; omega)]
  have hfields := headerBytes_fields N params hcc hN
  have hdata44 : file.drop 44 =
      (encodeSamples Rand.with_default_seed calls.flatten).1 := by
    rw [hfile, List.drop_left' (headerBytes_length N params)]
  refine ⟨?_, ?_, ?_, ?_, ?_, ?_, hdata44, ?_, fun i => ditherAt_mem i⟩
  · rw [hfile, List.length_append, headerBytes_length, encodeSamples_length]
  · rw [hfile, List.take_left' (headerBytes_length N params)]
  · rw [hextract 4 4 (by omega)]
    exact hfields.1
  · rw [hextract 16 4 (by omega)]
    exact hfields.2.1
  · rw [hextract 20 2 (by omega)]
    exact hfields.2.2.1
  · rw [hextract 34 2 (by omega)]
    exact hfields.2.2.2
  · intro i x h
    rw [hdata44]
    have := encodeSamples_at calls.flatten 0 i x h
    rw [Nat.zero_add] at this
    exact this

/-- Witness for `wav_writer_spec`: two write calls carrying the samples
`[1/2]` and `[0]` at 48 kHz mono. -/
theorem wav_writer_spec_witness :
    (2 * ([[(1 : ℚ)/2], [0]].flatten.length) + 36 < 4294967296) ∧
    (let N := [[(1 : ℚ)/2], [0]].flatten.length
     let file := (((Writer.from_stream ⟨[], 0⟩ ⟨1, 48000⟩).writeAll
        [[(1 : ℚ)/2], [0]]).finish).data
     file.length = 44 + 2 * N ∧
     file.take 44 = headerBytes N ⟨1, 48000⟩ ∧
     (file.drop 4).take 4 = le32 (2 * N + 36) ∧
     (file.drop 16).take 4 = le32 16 ∧
     (file.drop 20).take 2 = le16 1 ∧
     (file.drop 34).take 2 = le16 16 ∧
     file.drop 44 =
       (encodeSamples Rand.with_default_seed [[(1 : ℚ)/2], [0]].flatten).1 ∧
     (∀ i x, [[(1 : ℚ)/2], [0]].flatten.get? i = some x →
       ((file.drop 44).drop (2 * i)).take 2 =
         le16i (quantize x (ditherAt i))) ∧
     (∀ i, 0 ≤ ditherAt i ∧ ditherAt i < 1)) :=
  ⟨by decide, wav_writer_spec ⟨1, 48000⟩ [[(1 : ℚ)/2], [0]] rfl (by decide)⟩

end UltraFXR
